import Mathlib

/-!
Verification of the hex-color extractor (`src/main.py`).

The program's core is the compiled pattern

  HEX_REGEX = (?<![0-9A-Fa-f#])#(?:[0-9A-Fa-f]{3}|[0-9A-Fa-f]{4}|[0-9A-Fa-f]{6}|[0-9A-Fa-f]{8})(?![0-9A-Fa-f])

applied with `re.findall`, followed by an order-preserving de-duplication
(`find_hex_colors`), a plain-text reporter (`generate_report`) and a driver
(`main`) that catches Source-Loader failures.

Strings are embedded as `List Char` (the `String` wrappers appear at the end);
the regex engine's behaviour on this concrete pattern is embedded as a fueled
left-to-right scanner (`findAllFuel`) whose single-position match attempt
(`matchHere`) reproduces the engine's ordered alternation: lookbehind check,
then the alternatives `{3}`, `{4}`, `{6}`, `{8}` tried in this order, each
followed by the negative lookahead `(?![0-9A-Fa-f])`.
-/

/-- The character class `[0-9A-Fa-f]` of HEX_REGEX. -/
def isHexDigit (c : Char) : Bool :=
  (decide ('0' ≤ c ∧ c ≤ '9')) || (decide ('a' ≤ c ∧ c ≤ 'f')) || (decide ('A' ≤ c ∧ c ≤ 'F'))

/-- The negative lookbehind `(?<![0-9A-Fa-f#])`: the match position is rejected
when the immediately preceding character exists and is a hex digit or `#`. -/
def prevHexOrHash : Option Char → Bool
  | none => false
  | some c => isHexDigit c || (c == '#')

/-- The negative lookahead `(?![0-9A-Fa-f])`: succeeds at end of input or when
the next character is not a hex digit. -/
def headNotHex : List Char → Bool
  | [] => true
  | c :: _ => !isHexDigit c

/-- One alternative `[0-9A-Fa-f]{k}(?![0-9A-Fa-f])` of HEX_REGEX: consume
exactly `k` hex digits, then check the trailing negative lookahead. -/
def tryDigits : Nat → List Char → Option (List Char)
  | 0, rest => if headNotHex rest then some [] else none
  | _ + 1, [] => none
  | k + 1, c :: cs => if isHexDigit c then (tryDigits k cs).map (fun ds => c :: ds) else none

/-- A match attempt of HEX_REGEX at one position: the lookbehind on the
preceding character, the literal `#`, then the alternation
`{3} | {4} | {6} | {8}` tried in the engine's order. Returns the whole match. -/
def matchHere (prev : Option Char) (l : List Char) : Option (List Char) :=
  match l with
  | [] => none
  | c :: rs =>
    if c = '#' then
      if prevHexOrHash prev then none
      else
        match tryDigits 3 rs with
        | some ds => some ('#' :: ds)
        | none =>
          match tryDigits 4 rs with
          | some ds => some ('#' :: ds)
          | none =>
            match tryDigits 6 rs with
            | some ds => some ('#' :: ds)
            | none =>
              match tryDigits 8 rs with
              | some ds => some ('#' :: ds)
              | none => none
    else none

/-- `re.findall(HEX_REGEX, ·)`: scan left to right; on a failed attempt move
one character forward, on a successful match emit it and resume right after
it. `prev` is the character immediately before the current position (for the
lookbehind); the fuel is at least the length of the remaining text. -/
def findAllFuel : Nat → Option Char → List Char → List (List Char)
  | 0, _, _ => []
  | _ + 1, _, [] => []
  | fuel + 1, prev, c :: cs =>
    match matchHere prev (c :: cs) with
    | some tok => tok :: findAllFuel fuel tok.getLast? (cs.drop (tok.length - 1))
    | none => findAllFuel fuel (some c) cs

/-- `HEX_REGEX.findall(text)` on a character sequence. -/
def regexFindall (l : List Char) : List (List Char) :=
  findAllFuel l.length none l

/-- The de-duplication loop of `find_hex_colors`: an insertion-ordered set of
already seen tokens, appending each token not seen before. -/
def dedupFirst {α : Type} [DecidableEq α] (l : List α) : List α :=
  l.foldl (fun acc m => if m ∈ acc then acc else acc ++ [m]) []

/-- `find_hex_colors` on a character sequence: all regex matches, de-duplicated
preserving first-occurrence order. -/
def find_hex_colors_chars (text : List Char) : List (List Char) :=
  dedupFirst (regexFindall text)

/-- `find_hex_colors(text)`: the `String`-level wrapper of the core. -/
def find_hex_colors (text : String) : List String :=
  (find_hex_colors_chars text.data).map String.mk

/-- The reference scanning algorithm's match rule (spec §4.1): at a `#` whose
preceding character is neither a hex digit nor `#`, take the maximal
contiguous run of hex digits after the `#`; emit `#` plus that run iff the
run's length is exactly 3, 4, 6 or 8. -/
def specMatchHere (prev : Option Char) (l : List Char) : Option (List Char) :=
  match l with
  | [] => none
  | c :: rs =>
    if c = '#' then
      if prevHexOrHash prev then none
      else
        let run := rs.takeWhile isHexDigit
        if run.length = 3 ∨ run.length = 4 ∨ run.length = 6 ∨ run.length = 8 then
          some ('#' :: run)
        else none
    else none

/-- The reference scanning algorithm (spec §4.1): left-to-right scan using the
maximal-run rule `specMatchHere` at each position. -/
def specScanFuel : Nat → Option Char → List Char → List (List Char)
  | 0, _, _ => []
  | _ + 1, _, [] => []
  | fuel + 1, prev, c :: cs =>
    match specMatchHere prev (c :: cs) with
    | some tok => tok :: specScanFuel fuel tok.getLast? (cs.drop (tok.length - 1))
    | none => specScanFuel fuel (some c) cs

/-- A valid token: `#` followed by a run of hex digits of length 3, 4, 6 or 8. -/
def isValidTok (t : List Char) : Bool :=
  match t with
  | [] => false
  | c :: run =>
    (c == '#') && run.all isHexDigit &&
      (decide (run.length = 3 ∨ run.length = 4 ∨ run.length = 6 ∨ run.length = 8))

/-- `" ".join(tokens)`. -/
def joinSpace : List (List Char) → List Char
  | [] => []
  | [t] => t
  | t :: ts => t ++ ' ' :: joinSpace ts

/-- The index of the first occurrence of `a` in a list (the list's length when
`a` is absent). -/
def firstIdx {α : Type} [DecidableEq α] : List α → α → Nat
  | [], _ => 0
  | x :: xs, a => if x = a then 0 else firstIdx xs a + 1

/-- Recursive form of the de-duplication loop: `seen` is the insertion-ordered
set built so far, and only the freshly appended part is returned. -/
def ddAux {α : Type} [DecidableEq α] : List α → List α → List α
  | _, [] => []
  | seen, x :: xs => if x ∈ seen then ddAux seen xs else x :: ddAux (seen ++ [x]) xs

/-- The lines built by `generate_report`: a header, then either a single
"none found" line, or one line per token, numbered from 1 via
`enumerate(found, 1)`, showing the token and its length minus one. -/
def report_lines (found : List String) : List String :=
  "Отчет по найденным HEX-цветам:" ::
    (if found.isEmpty then ["  Цвета не найдены."]
     else (found.enumFrom 1).map
       (fun p => "  " ++ toString p.1 ++ ". " ++ p.2 ++ " — "
         ++ toString (p.2.length - 1) ++ " символов"))

/-- `generate_report(found)`: the report lines joined by newlines. -/
def generate_report (found : List String) : String :=
  String.intercalate "\n" (report_lines found)

/-- The driver `main` after argument parsing, as a function of the Source
Loader's outcome, parametrised by the extractor it would call on success.
On a loader failure the `except` branch prints one line and returns; on
success the report is printed, surrounded by blank lines. The returned list
holds the successive `print` payloads. -/
def mainOutputWith (extractor : String → List String) :
    Except String String → List String
  | Except.error e => ["Ошибка при получении данных: " ++ e]
  | Except.ok text => ["\n" ++ generate_report (extractor text) ++ "\n"]

/-- The driver `main` with the program's own extractor `find_hex_colors`. -/
def mainOutput (loaded : Except String String) : List String :=
  mainOutputWith find_hex_colors loaded

/-! ### The single-position match attempt equals the maximal-run rule -/

theorem tryDigits_eq (cs : List Char) : ∀ k : Nat,
    tryDigits k cs =
      (if (cs.takeWhile isHexDigit).length = k then some (cs.takeWhile isHexDigit) else none) := by
  induction cs with
  | nil =>
    intro k
    cases k with
    | zero => simp [tryDigits, headNotHex, List.takeWhile]
    | succ j => simp [tryDigits, List.takeWhile]
  | cons c cs ih =>
    intro k
    by_cases hc : isHexDigit c = true
    · cases k with
      | zero =>
        simp [tryDigits, headNotHex, hc, List.takeWhile]
      | succ j =>
        have := ih j
        simp only [tryDigits, hc, if_pos rfl, List.takeWhile, this]
        by_cases hj : (cs.takeWhile isHexDigit).length = j
        · simp [hj, hc]
        · have : ¬ (c :: cs.takeWhile isHexDigit).length = j + 1 := by
            simp [List.length_cons]; omega
          simp [hj, hc, this]
    · have hc' : isHexDigit c = false := by
        cases h : isHexDigit c
        · rfl
        · exact absurd h hc
      cases k with
      | zero =>
        simp [tryDigits, headNotHex, hc', List.takeWhile]
      | succ j =>
        simp [tryDigits, hc', List.takeWhile]

theorem matchHere_eq_spec (prev : Option Char) (l : List Char) :
    matchHere prev l = specMatchHere prev l := by
  cases l with
  | nil => rfl
  | cons c rs =>
    by_cases hc : c = '#'
    · by_cases hp : prevHexOrHash prev = true
      · simp [matchHere, specMatchHere, hc, hp]
      · have hp' : prevHexOrHash prev = false := by
          cases h : prevHexOrHash prev
          · rfl
          · exact absurd h hp
        simp only [matchHere, specMatchHere, hc, hp', tryDigits_eq]
        simp only [Bool.false_eq_true, if_false, if_pos rfl]
        by_cases h3 : (rs.takeWhile isHexDigit).length = 3
        · simp [h3]
        · by_cases h4 : (rs.takeWhile isHexDigit).length = 4
          · simp [h3, h4]
          · by_cases h6 : (rs.takeWhile isHexDigit).length = 6
            · simp [h3, h4, h6]
            · by_cases h8 : (rs.takeWhile isHexDigit).length = 8
              · simp [h3, h4, h6, h8]
              · simp [h3, h4, h6, h8]
    · simp [matchHere, specMatchHere, hc]

/-- The two scanners agree step by step. -/
theorem findAllFuel_eq_specScanFuel : ∀ (fuel : Nat) (prev : Option Char) (l : List Char),
    findAllFuel fuel prev l = specScanFuel fuel prev l := by
  intro fuel
  induction fuel with
  | zero => intro prev l; rfl
  | succ n ih =>
    intro prev l
    cases l with
    | nil => rfl
    | cons c cs =>
      simp only [findAllFuel, specScanFuel, matchHere_eq_spec]
      cases specMatchHere prev (c :: cs) with
      | none => exact ih (some c) cs
      | some tok => simp [ih]

/-! ### Helpers about hex runs -/

theorem takeWhile_append_all {p : Char → Bool} : ∀ (l l' : List Char), l.all p = true →
    (l ++ l').takeWhile p = l ++ l'.takeWhile p := by
  intro l
  induction l with
  | nil => intro l' _; rfl
  | cons c cs ih =>
    intro l' h
    simp only [List.all_cons, Bool.and_eq_true] at h
    simp [List.takeWhile, h.1, ih l' h.2]

theorem takeWhile_nil_of_headNotHex : ∀ (rest : List Char), headNotHex rest = true →
    rest.takeWhile isHexDigit = [] := by
  intro rest h
  cases rest with
  | nil => rfl
  | cons c cs =>
    simp only [headNotHex, Bool.not_eq_true'] at h
    simp [List.takeWhile, h]

theorem all_takeWhile {p : Char → Bool} : ∀ (l : List Char), (l.takeWhile p).all p = true := by
  intro l
  induction l with
  | nil => rfl
  | cons c cs ih =>
    by_cases h : p c = true
    · simp [List.takeWhile, h, ih]
    · simp only [Bool.not_eq_true] at h
      simp [List.takeWhile, h]

theorem headNotHex_dropWhile : ∀ (l : List Char), headNotHex (l.dropWhile isHexDigit) = true := by
  intro l
  induction l with
  | nil => rfl
  | cons c cs ih =>
    by_cases h : isHexDigit c = true
    · simpa [List.dropWhile, h] using ih
    · simp only [Bool.not_eq_true] at h
      simp [List.dropWhile, headNotHex, h]

theorem getLast?_cons_all {p : Char → Bool} : ∀ (l : List Char) (c0 : Char), l ≠ [] →
    l.all p = true → ∃ c, (c0 :: l).getLast? = some c ∧ p c = true := by
  intro l
  induction l with
  | nil => intro c0 h; exact absurd rfl h
  | cons c cs ih =>
    intro c0 _ hall
    simp only [List.all_cons, Bool.and_eq_true] at hall
    cases cs with
    | nil => exact ⟨c, by simp, hall.1⟩
    | cons d ds =>
      obtain ⟨e, he, hpe⟩ := ih c (by simp) hall.2
      refine ⟨e, ?_, hpe⟩
      simpa [List.getLast?_cons_cons] using he

/-! ### Step lemmas for the scanner -/

theorem specMatchHere_pos {prev : Option Char} {run rest : List Char}
    (hprev : prevHexOrHash prev = false) (hrun : run.all isHexDigit = true)
    (hlen : run.length = 3 ∨ run.length = 4 ∨ run.length = 6 ∨ run.length = 8)
    (hrest : headNotHex rest = true) :
    specMatchHere prev ('#' :: (run ++ rest)) = some ('#' :: run) := by
  have htw : (run ++ rest).takeWhile isHexDigit = run := by
    rw [takeWhile_append_all run rest hrun, takeWhile_nil_of_headNotHex rest hrest,
      List.append_nil]
  simp [specMatchHere, hprev, htw, hlen]

theorem specMatchHere_not_hash {prev : Option Char} {c : Char} {cs : List Char}
    (h : c ≠ '#') : specMatchHere prev (c :: cs) = none := by
  simp [specMatchHere, h]

theorem specMatchHere_prevBad {prev : Option Char} {l : List Char}
    (h : prevHexOrHash prev = true) : specMatchHere prev l = none := by
  cases l with
  | nil => rfl
  | cons c cs =>
    by_cases hc : c = '#'
    · simp [specMatchHere, hc, h]
    · simp [specMatchHere, hc]

theorem specMatchHere_hash_eq (prev : Option Char) (rs : List Char) :
    specMatchHere prev ('#' :: rs) =
      if prevHexOrHash prev = true then none
      else if (rs.takeWhile isHexDigit).length = 3 ∨ (rs.takeWhile isHexDigit).length = 4 ∨
          (rs.takeWhile isHexDigit).length = 6 ∨ (rs.takeWhile isHexDigit).length = 8 then
        some ('#' :: rs.takeWhile isHexDigit)
      else none := by
  by_cases hp : prevHexOrHash prev = true
  · simp [specMatchHere, hp]
  · have hp' : prevHexOrHash prev = false := by
      cases hb : prevHexOrHash prev
      · rfl
      · exact absurd hb hp
    simp [specMatchHere, hp']

theorem specScanFuel_nil (fuel : Nat) (prev : Option Char) :
    specScanFuel fuel prev [] = [] := by
  cases fuel <;> rfl

theorem specScanFuel_skip {prev : Option Char} {c : Char} {cs : List Char} {fuel : Nat}
    (h : specMatchHere prev (c :: cs) = none) :
    specScanFuel (fuel + 1) prev (c :: cs) = specScanFuel fuel (some c) cs := by
  simp [specScanFuel, h]

theorem specScanFuel_token {prev : Option Char} {run rest : List Char} {fuel : Nat}
    (hprev : prevHexOrHash prev = false) (hrun : run.all isHexDigit = true)
    (hlen : run.length = 3 ∨ run.length = 4 ∨ run.length = 6 ∨ run.length = 8)
    (hrest : headNotHex rest = true) :
    specScanFuel (fuel + 1) prev ('#' :: (run ++ rest))
      = ('#' :: run) :: specScanFuel fuel (('#' :: run).getLast?) rest := by
  have h := specMatchHere_pos hprev hrun hlen hrest
  have hdrop : (run ++ rest).drop (('#' :: run).length - 1) = rest := by
    simp [List.drop_left]
  simp [specScanFuel, h, hdrop]

/-- After a valid token the preceding character seen by the lookbehind is the
token's last hex digit, so the lookbehind always fails right after a token. -/
theorem prevHexOrHash_token_last {run : List Char} (hrun : run.all isHexDigit = true)
    (hne : run ≠ []) : prevHexOrHash (('#' :: run).getLast?) = true := by
  obtain ⟨c, hc, hpc⟩ := getLast?_cons_all run '#' hne hrun
  simp [hc, prevHexOrHash, hpc]

/-- A trailing single separator (or any single character) after a token is
never matched: either it is not `#`, or the lookbehind rejects it. -/
theorem specScanFuel_last_sep {prev : Option Char} {y : Char} {fuel : Nat}
    (h : y ≠ '#' ∨ prevHexOrHash prev = true) :
    specScanFuel (fuel + 1) prev [y] = [] := by
  have hnone : specMatchHere prev [y] = none := by
    rcases h with h | h
    · exact specMatchHere_not_hash h
    · exact specMatchHere_prevBad h
  rw [specScanFuel_skip hnone, specScanFuel_nil]

/-! ### The de-duplication loop -/

theorem foldl_dedup_eq_ddAux {α : Type} [DecidableEq α] : ∀ (l acc : List α),
    l.foldl (fun acc m => if m ∈ acc then acc else acc ++ [m]) acc = acc ++ ddAux acc l := by
  intro l
  induction l with
  | nil => intro acc; simp [ddAux]
  | cons x xs ih =>
    intro acc
    by_cases hx : x ∈ acc
    · simp [List.foldl_cons, hx, ih acc, ddAux]
    · simp [List.foldl_cons, hx, ih (acc ++ [x]), ddAux]

theorem dedupFirst_eq_ddAux {α : Type} [DecidableEq α] (l : List α) :
    dedupFirst l = ddAux [] l := by
  simpa [dedupFirst] using foldl_dedup_eq_ddAux l []

theorem ddAux_sublist {α : Type} [DecidableEq α] : ∀ (l seen : List α),
    List.Sublist (ddAux seen l) l := by
  intro l
  induction l with
  | nil => intro seen; simp [ddAux]
  | cons x xs ih =>
    intro seen
    by_cases hx : x ∈ seen
    · simpa [ddAux, hx] using List.Sublist.cons x (ih seen)
    · simpa [ddAux, hx] using List.Sublist.cons₂ x (ih (seen ++ [x]))

theorem ddAux_mem {α : Type} [DecidableEq α] : ∀ (l seen : List α) (x : α),
    x ∈ ddAux seen l ↔ x ∈ l ∧ x ∉ seen := by
  intro l
  induction l with
  | nil => intro seen x; simp [ddAux]
  | cons y ys ih =>
    intro seen x
    by_cases hy : y ∈ seen
    · rw [ddAux, if_pos hy, ih seen x]
      constructor
      · rintro ⟨h1, h2⟩
        exact ⟨List.mem_cons_of_mem y h1, h2⟩
      · rintro ⟨h1, h2⟩
        rcases List.mem_cons.mp h1 with h | h
        · exact absurd (h ▸ hy) h2
        · exact ⟨h, h2⟩
    · rw [ddAux, if_neg hy]
      simp only [List.mem_cons, ih (seen ++ [y]) x, List.mem_append,
        List.mem_singleton]
      constructor
      · rintro (h | ⟨h1, h2⟩)
        · exact ⟨Or.inl h, h ▸ hy⟩
        · exact ⟨Or.inr h1, fun hs => h2 (Or.inl hs)⟩
      · rintro ⟨h1, h2⟩
        by_cases hxy : x = y
        · exact Or.inl hxy
        · rcases h1 with h | h
          · exact absurd h hxy
          · refine Or.inr ⟨h, ?_⟩
            rintro (hs | hs | hs)
            · exact h2 hs
            · exact hxy hs
            · exact List.not_mem_nil x hs

theorem ddAux_nodup {α : Type} [DecidableEq α] : ∀ (l seen : List α),
    (ddAux seen l).Nodup := by
  intro l
  induction l with
  | nil => intro seen; simp [ddAux]
  | cons x xs ih =>
    intro seen
    by_cases hx : x ∈ seen
    · rw [ddAux, if_pos hx]; exact ih seen
    · rw [ddAux, if_neg hx]
      refine List.Nodup.cons ?_ (ih (seen ++ [x]))
      intro hmem
      exact ((ddAux_mem xs (seen ++ [x]) x).mp hmem).2 (List.mem_append_right seen (by simp))

theorem ddAux_pairwise_firstIdx {α : Type} [DecidableEq α] : ∀ (l seen : List α),
    (ddAux seen l).Pairwise (fun a b => firstIdx l a < firstIdx l b) := by
  intro l
  induction l with
  | nil => intro seen; simp [ddAux]
  | cons x xs ih =>
    intro seen
    by_cases hx : x ∈ seen
    · rw [ddAux, if_pos hx]
      refine List.Pairwise.imp_of_mem ?_ (ih seen)
      intro a b ha hb hlt
      have hax : a ≠ x := fun h => ((ddAux_mem xs seen a).mp ha).2 (h ▸ hx)
      have hbx : b ≠ x := fun h => ((ddAux_mem xs seen b).mp hb).2 (h ▸ hx)
      rw [firstIdx, if_neg (Ne.symm hax)]
      rw [firstIdx, if_neg (Ne.symm hbx)]
      omega
    · rw [ddAux, if_neg hx]
      refine List.Pairwise.cons ?_ ?_
      · intro b hb
        have hbx : b ≠ x := fun h =>
          ((ddAux_mem xs (seen ++ [x]) b).mp hb).2 (h ▸ List.mem_append_right seen (by simp))
        rw [firstIdx, if_pos rfl]
        rw [firstIdx, if_neg (Ne.symm hbx)]
        omega
      · refine List.Pairwise.imp_of_mem ?_ (ih (seen ++ [x]))
        intro a b ha hb hlt
        have hax : a ≠ x := fun h =>
          ((ddAux_mem xs (seen ++ [x]) a).mp ha).2 (h ▸ List.mem_append_right seen (by simp))
        have hbx : b ≠ x := fun h =>
          ((ddAux_mem xs (seen ++ [x]) b).mp hb).2 (h ▸ List.mem_append_right seen (by simp))
        rw [firstIdx, if_neg (Ne.symm hax)]
        rw [firstIdx, if_neg (Ne.symm hbx)]
        omega

theorem ddAux_eq_self {α : Type} [DecidableEq α] : ∀ (l seen : List α), l.Nodup →
    (∀ x ∈ l, x ∉ seen) → ddAux seen l = l := by
  intro l
  induction l with
  | nil => intro seen _ _; rfl
  | cons x xs ih =>
    intro seen hnd hdisj
    rw [ddAux, if_neg (hdisj x (List.mem_cons_self x xs))]
    congr 1
    refine ih (seen ++ [x]) (List.Nodup.of_cons hnd) ?_
    intro y hy hmem
    rcases List.mem_append.mp hmem with h | h
    · exact hdisj y (List.mem_cons_of_mem x hy) h
    · have : y = x := by simpa using h
      exact (List.nodup_cons.mp hnd).1 (this ▸ hy)

/-! ### Shape of emitted tokens -/

theorem specMatchHere_some_shape {prev : Option Char} {l tok : List Char}
    (h : specMatchHere prev l = some tok) :
    ∃ run, tok = '#' :: run ∧ run.all isHexDigit = true ∧
      (run.length = 3 ∨ run.length = 4 ∨ run.length = 6 ∨ run.length = 8) := by
  cases l with
  | nil => exact absurd h (by simp [specMatchHere])
  | cons c rs =>
    by_cases hc : c = '#'
    · by_cases hp : prevHexOrHash prev = true
      · rw [specMatchHere_prevBad hp] at h
        exact absurd h (by simp)
      · have hp' : prevHexOrHash prev = false := by
          cases hb : prevHexOrHash prev
          · rfl
          · exact absurd hb hp
        simp only [specMatchHere, hc, if_pos rfl, hp', Bool.false_eq_true, if_false] at h
        by_cases hlen : (rs.takeWhile isHexDigit).length = 3 ∨
            (rs.takeWhile isHexDigit).length = 4 ∨ (rs.takeWhile isHexDigit).length = 6 ∨
            (rs.takeWhile isHexDigit).length = 8
        · rw [if_pos hlen] at h
          exact ⟨rs.takeWhile isHexDigit, by simpa using h.symm, all_takeWhile rs, hlen⟩
        · rw [if_neg hlen] at h
          exact absurd h (by simp)
    · rw [specMatchHere_not_hash hc] at h
      exact absurd h (by simp)

theorem specMatchHere_some_valid {prev : Option Char} {l tok : List Char}
    (h : specMatchHere prev l = some tok) : isValidTok tok = true := by
  obtain ⟨run, rfl, hall, hlen⟩ := specMatchHere_some_shape h
  simp [isValidTok, hall, hlen]

theorem mem_specScanFuel_valid : ∀ (fuel : Nat) (prev : Option Char) (l tok : List Char),
    tok ∈ specScanFuel fuel prev l → isValidTok tok = true := by
  intro fuel
  induction fuel with
  | zero => intro prev l tok h; exact absurd h (by simp [specScanFuel])
  | succ n ih =>
    intro prev l tok h
    cases l with
    | nil => exact absurd h (by simp [specScanFuel])
    | cons c cs =>
      rw [specScanFuel] at h
      cases hm : specMatchHere prev (c :: cs) with
      | none =>
        rw [hm] at h
        exact ih (some c) cs tok h
      | some t =>
        rw [hm] at h
        rcases List.mem_cons.mp h with h | h
        · exact h ▸ specMatchHere_some_valid hm
        · exact ih t.getLast? (cs.drop (t.length - 1)) tok (by simpa using h)

/-! ### Strings without a hash -/

theorem specScanFuel_no_hash : ∀ (fuel : Nat) (prev : Option Char) (l : List Char),
    '#' ∉ l → specScanFuel fuel prev l = [] := by
  intro fuel
  induction fuel with
  | zero => intro prev l _; rfl
  | succ n ih =>
    intro prev l hl
    cases l with
    | nil => rfl
    | cons c cs =>
      have hc : c ≠ '#' := fun h => hl (h ▸ List.mem_cons_self c cs)
      rw [specScanFuel_skip (specMatchHere_not_hash hc)]
      exact ih (some c) cs (fun h => hl (List.mem_cons_of_mem c h))

/-! ### Scanning a space-joined list of valid tokens -/

theorem isValidTok_shape {t : List Char} (h : isValidTok t = true) :
    ∃ run, t = '#' :: run ∧ run.all isHexDigit = true ∧
      (run.length = 3 ∨ run.length = 4 ∨ run.length = 6 ∨ run.length = 8) := by
  cases t with
  | nil => exact absurd h (by simp [isValidTok])
  | cons c run =>
    simp only [isValidTok, Bool.and_eq_true, beq_iff_eq, decide_eq_true_eq] at h
    exact ⟨run, by rw [h.1.1], h.1.2, h.2⟩

theorem specScanFuel_joinSpace : ∀ (ts : List (List Char)),
    (∀ t ∈ ts, isValidTok t = true) → ∀ (fuel : Nat) (prev : Option Char),
    (joinSpace ts).length ≤ fuel → prevHexOrHash prev = false →
    specScanFuel fuel prev (joinSpace ts) = ts := by
  intro ts
  induction ts with
  | nil =>
    intro _ fuel prev _ _
    simpa [joinSpace] using specScanFuel_nil fuel prev
  | cons t ts ih =>
    intro hvalid fuel prev hfuel hprev
    obtain ⟨run, rfl, hall, hlen⟩ := isValidTok_shape (hvalid t (List.mem_cons_self t ts))
    have hrunpos : run ≠ [] := by
      intro h
      rw [h] at hlen
      simp at hlen
    cases ts with
    | nil =>
      have hj : joinSpace ['#' :: run] = '#' :: (run ++ []) := by simp [joinSpace]
      rw [hj] at hfuel ⊢
      obtain ⟨f, rfl⟩ : ∃ f, fuel = f + 1 := by
        cases fuel
        · exact absurd hfuel (by simp [List.length_cons])
        · exact ⟨_, rfl⟩
      rw [specScanFuel_token hprev hall hlen (by simp [headNotHex])]
      rw [specScanFuel_nil]
    | cons t' ts' =>
      have hj : joinSpace (('#' :: run) :: t' :: ts')
          = '#' :: (run ++ ' ' :: joinSpace (t' :: ts')) := by
        simp [joinSpace]
      rw [hj] at hfuel ⊢
      obtain ⟨f, rfl⟩ : ∃ f, fuel = f + 1 := by
        cases fuel
        · exact absurd hfuel (by simp [List.length_cons])
        · exact ⟨_, rfl⟩
      rw [specScanFuel_token hprev hall hlen (by simp [headNotHex, isHexDigit])]
      congr 1
      have hlen2 : (' ' :: joinSpace (t' :: ts')).length ≤ f := by
        have := List.length_append run (' ' :: joinSpace (t' :: ts'))
        simp only [List.length_cons] at hfuel ⊢
        simp only [List.length_append, List.length_cons] at this hfuel
        omega
      obtain ⟨g, rfl⟩ : ∃ g, f = g + 1 := by
        cases f
        · exact absurd hlen2 (by simp [List.length_cons])
        · exact ⟨_, rfl⟩
      have hplast : prevHexOrHash (('#' :: run).getLast?) = true :=
        prevHexOrHash_token_last hall hrunpos
      rw [specScanFuel_skip (specMatchHere_prevBad hplast)]
      refine ih (fun t ht => hvalid t (List.mem_cons_of_mem _ ht)) g (some ' ') ?_ ?_
      · simpa using hlen2
      · simp [prevHexOrHash, isHexDigit]

/-! ### Extracting a single isolated token -/

theorem specScanFuel_token_only (fuel : Nat) (prev : Option Char) (ds rest : List Char)
    (hprev : prevHexOrHash prev = false) (hall : ds.all isHexDigit = true)
    (hlen : ds.length = 3 ∨ ds.length = 4 ∨ ds.length = 6 ∨ ds.length = 8)
    (hrest : rest = [] ∨ ∃ y, rest = [y] ∧ isHexDigit y = false)
    (hfuel : ds.length + 1 + rest.length ≤ fuel) :
    specScanFuel fuel prev ('#' :: (ds ++ rest)) = ['#' :: ds] := by
  have hdsne : ds ≠ [] := by
    intro h
    rw [h] at hlen
    simp at hlen
  obtain ⟨f, rfl⟩ : ∃ f, fuel = f + 1 := ⟨fuel - 1, by omega⟩
  rcases hrest with rfl | ⟨y, rfl, hy⟩
  · rw [specScanFuel_token hprev hall hlen (show headNotHex [] = true from rfl),
      specScanFuel_nil]
  · simp only [List.length_cons, List.length_nil] at hfuel
    obtain ⟨g, rfl⟩ : ∃ g, f = g + 1 := ⟨f - 1, by omega⟩
    rw [specScanFuel_token hprev hall hlen (by simp [headNotHex, hy])]
    rw [specScanFuel_last_sep (Or.inr (prevHexOrHash_token_last hall hdsne))]

theorem dedupFirst_singleton (t : List Char) : dedupFirst [t] = [t] := by
  simp [dedupFirst]

theorem find_hex_colors_chars_spec (l : List Char) :
    find_hex_colors_chars l = dedupFirst (specScanFuel l.length none l) := by
  unfold find_hex_colors_chars regexFindall
  rw [findAllFuel_eq_specScanFuel]

theorem extract_isolated_token (ds rest : List Char)
    (hall : ds.all isHexDigit = true)
    (hlen : ds.length = 3 ∨ ds.length = 4 ∨ ds.length = 6 ∨ ds.length = 8)
    (hrest : rest = [] ∨ ∃ y, rest = [y] ∧ isHexDigit y = false) :
    find_hex_colors_chars ('#' :: (ds ++ rest)) = ['#' :: ds] := by
  rw [find_hex_colors_chars_spec]
  rw [specScanFuel_token_only _ none ds rest rfl hall hlen hrest
    (by simp only [List.length_cons, List.length_append]; omega)]
  exact dedupFirst_singleton _

theorem extract_sep_isolated_token (x : Char) (ds rest : List Char)
    (hx : x ≠ '#') (hall : ds.all isHexDigit = true)
    (hlen : ds.length = 3 ∨ ds.length = 4 ∨ ds.length = 6 ∨ ds.length = 8)
    (hrest : rest = [] ∨ ∃ y, rest = [y] ∧ isHexDigit y = false)
    (hxprev : prevHexOrHash (some x) = false) :
    find_hex_colors_chars (x :: '#' :: (ds ++ rest)) = ['#' :: ds] := by
  rw [find_hex_colors_chars_spec]
  have key : ∀ fuel, ds.length + 2 + rest.length ≤ fuel →
      specScanFuel fuel none (x :: '#' :: (ds ++ rest)) = ['#' :: ds] := by
    intro fuel hf
    obtain ⟨f, rfl⟩ : ∃ f, fuel = f + 1 := ⟨fuel - 1, by omega⟩
    rw [specScanFuel_skip (specMatchHere_not_hash hx)]
    exact specScanFuel_token_only f (some x) ds rest hxprev hall hlen hrest (by omega)
  rw [key _ (by simp only [List.length_cons, List.length_append]; omega)]
  exact dedupFirst_singleton _

/-! ### Claims -/

/-- Claim C1, counterexample: `#` is itself a non-hex-digit character, yet with
`x = '#'`, `t = "#fff"`, `y = '.'` the extractor returns `[]`, not `["#fff"]`:
the doubled hash makes the lookbehind reject the inner candidate and the outer
`#` is not followed by hex digits. -/
theorem claim1_counterexample :
    isHexDigit '#' = false ∧ isHexDigit '.' = false ∧
    find_hex_colors "##fff." = [] ∧ find_hex_colors "##fff." ≠ ["#fff"] := by
  refine ⟨by decide, by decide, by decide, by decide⟩

/-- Claim C1 (amended): for every valid token `#ds` (3, 4, 6 or 8 hex digits)
and all single separator characters `x`, `y` where `y` is not a hex digit and
`x` is neither a hex digit nor `#`, extracting `x ++ #ds ++ y` returns exactly
`[#ds]`. -/
theorem claim1_sep_token_sep (x y : Char) (ds : List Char)
    (hx : isHexDigit x = false) (hxh : x ≠ '#') (hy : isHexDigit y = false)
    (hall : ds.all isHexDigit = true)
    (hlen : ds.length = 3 ∨ ds.length = 4 ∨ ds.length = 6 ∨ ds.length = 8) :
    find_hex_colors_chars (x :: '#' :: (ds ++ [y])) = ['#' :: ds] := by
  exact extract_sep_isolated_token x ds [y] hxh hall hlen (Or.inr ⟨y, rfl, hy⟩)
    (by simp [prevHexOrHash, hx, hxh])

theorem claim1_witness :
    isHexDigit ' ' = false ∧ (' ' ≠ '#') ∧ isHexDigit ';' = false ∧
    (['1', '2', '3'] : List Char).all isHexDigit = true ∧
    find_hex_colors_chars (' ' :: '#' :: (['1', '2', '3'] ++ [';'])) = ['#' :: ['1', '2', '3']] :=
  ⟨by decide, by decide, by decide, by decide,
    claim1_sep_token_sep ' ' ';' ['1', '2', '3'] (by decide) (by decide) (by decide)
      (by decide) (by decide)⟩

/-- Claim C2: the regex-based implementation (`regexFindall`, embedding
HEX_REGEX's ordered alternation with lookbehind and lookahead under
`re.findall`) is equivalent to the reference scanning algorithm
(`specScanFuel`, which at each `#` whose preceding character is neither a hex
digit nor `#` emits `#` plus the maximal contiguous hex-digit run after it iff
that run's length is exactly 3, 4, 6 or 8, and emits nothing else). -/
theorem claim2_regex_refines_reference_scan (l : List Char) :
    regexFindall l = specScanFuel l.length none l :=
  findAllFuel_eq_specScanFuel l.length none l

/-- Claim C3: a maximal run of exactly 5 or exactly 7 hex digits after `#`, or
one extending past 8, produces no match at all for that `#` (first conjunct);
a `#` whose preceding character is a hex digit is never matched (second
conjunct, token abutting hex digits on the left); and a valid-length token
directly abutting an extra hex digit on the right is never the emitted match
(third conjunct). -/
theorem claim3_boundary_rejection :
    (∀ (prev : Option Char) (ds rest : List Char), ds.all isHexDigit = true →
      headNotHex rest = true → (ds.length = 5 ∨ ds.length = 7 ∨ 8 < ds.length) →
      matchHere prev ('#' :: (ds ++ rest)) = none) ∧
    (∀ (c : Char) (l : List Char), isHexDigit c = true →
      matchHere (some c) l = none) ∧
    (∀ (prev : Option Char) (ds rest : List Char) (c : Char), ds.all isHexDigit = true →
      (ds.length = 3 ∨ ds.length = 4 ∨ ds.length = 6 ∨ ds.length = 8) →
      isHexDigit c = true →
      matchHere prev ('#' :: (ds ++ c :: rest)) ≠ some ('#' :: ds)) := by
  refine ⟨?_, ?_, ?_⟩
  · intro prev ds rest hall hrest hlen
    rw [matchHere_eq_spec, specMatchHere_hash_eq]
    have htw : (ds ++ rest).takeWhile isHexDigit = ds := by
      rw [takeWhile_append_all ds rest hall, takeWhile_nil_of_headNotHex rest hrest,
        List.append_nil]
    rw [htw]
    by_cases hp : prevHexOrHash prev = true
    · rw [if_pos hp]
    · rw [if_neg hp, if_neg (by omega)]
  · intro c l hc
    rw [matchHere_eq_spec]
    exact specMatchHere_prevBad (by simp [prevHexOrHash, hc])
  · intro prev ds rest c hall hlen hc heq
    rw [matchHere_eq_spec, specMatchHere_hash_eq] at heq
    have htw : (ds ++ c :: rest).takeWhile isHexDigit
        = ds ++ c :: rest.takeWhile isHexDigit := by
      rw [takeWhile_append_all ds _ hall]
      simp [List.takeWhile, hc]
    rw [htw] at heq
    split at heq
    · exact absurd heq (by simp)
    · split at heq
      · have hds := List.cons.inj (Option.some.inj heq)
        have := congrArg List.length hds.2
        simp only [List.length_append, List.length_cons] at this
        omega
      · exact absurd heq (by simp)

theorem claim3_witness :
    matchHere none ('#' :: (['1', '2', '3', '4', '5'] ++ ([] : List Char))) = none ∧
    matchHere (some 'a') ['#', '1', '2', '3'] = none ∧
    matchHere none ('#' :: (['1', '2', '3'] ++ '4' :: [])) ≠ some ('#' :: ['1', '2', '3']) :=
  ⟨claim3_boundary_rejection.1 none ['1', '2', '3', '4', '5'] [] (by decide) (by decide)
      (by decide),
   claim3_boundary_rejection.2.1 'a' ['#', '1', '2', '3'] (by decide),
   claim3_boundary_rejection.2.2 none ['1', '2', '3'] [] '4' (by decide) (by decide)
      (by decide)⟩

/-- Claim C4: the five concrete reference scenarios of the spec (which are also
the program's unit tests). -/
theorem claim4_reference_scenarios :
    find_hex_colors "color: #fff;" = ["#fff"] ∧
    find_hex_colors "border: #1a2b3c; background:#ABCDEF;" = ["#1a2b3c", "#ABCDEF"] ∧
    find_hex_colors "a #123 b #123456 c #abcd d #abcdef12 e #fff"
      = ["#123", "#123456", "#abcd", "#abcdef12", "#fff"] ∧
    find_hex_colors "#ab #12345 #1234z #12g #abcd5" = ["#1234"] ∧
    find_hex_colors "#fff text #fff more #FFF and #123" = ["#fff", "#FFF", "#123"] := by
  refine ⟨by decide, by decide, by decide, by decide, by decide⟩

/-- Claim C5: the result is a subsequence of the occurrence sequence, contains
no two equal strings (equality of character lists is exact, hence
case-sensitive), keeps each distinct token at its first-occurrence position
(first-occurrence indices strictly increase along the result), and `#fff` and
`#FFF` are distinct entries kept in order. -/
theorem claim5_result_set_invariants (l : List Char) :
    List.Sublist (find_hex_colors_chars l) (regexFindall l) ∧
    (find_hex_colors_chars l).Nodup ∧
    (∀ t, t ∈ find_hex_colors_chars l ↔ t ∈ regexFindall l) ∧
    (find_hex_colors_chars l).Pairwise
      (fun a b => firstIdx (regexFindall l) a < firstIdx (regexFindall l) b) ∧
    find_hex_colors "p #fff q #FFF" = ["#fff", "#FFF"] := by
  have hdd : find_hex_colors_chars l = ddAux [] (regexFindall l) :=
    dedupFirst_eq_ddAux _
  refine ⟨?_, ?_, ?_, ?_, by decide⟩
  · rw [hdd]; exact ddAux_sublist _ _
  · rw [hdd]; exact ddAux_nodup _ _
  · intro t
    rw [hdd, ddAux_mem]
    simp
  · rw [hdd]; exact ddAux_pairwise_firstIdx (regexFindall l) []

/-- Claim C6: extracting again from the space-joined result returns the same
result — tokens stay valid, order is preserved, no duplicates appear. -/
theorem claim6_idempotence (l : List Char) :
    find_hex_colors_chars (joinSpace (find_hex_colors_chars l)) = find_hex_colors_chars l := by
  have hdd : find_hex_colors_chars l = ddAux [] (regexFindall l) :=
    dedupFirst_eq_ddAux _
  have hvalid : ∀ t ∈ find_hex_colors_chars l, isValidTok t = true := by
    intro t ht
    rw [hdd] at ht
    have h1 : t ∈ regexFindall l := ((ddAux_mem _ _ _).mp ht).1
    rw [regexFindall, findAllFuel_eq_specScanFuel] at h1
    exact mem_specScanFuel_valid _ _ _ _ h1
  have hnd : (find_hex_colors_chars l).Nodup := by
    rw [hdd]; exact ddAux_nodup _ _
  have hscan : regexFindall (joinSpace (find_hex_colors_chars l)) = find_hex_colors_chars l := by
    rw [regexFindall, findAllFuel_eq_specScanFuel]
    exact specScanFuel_joinSpace _ hvalid _ none le_rfl rfl
  calc find_hex_colors_chars (joinSpace (find_hex_colors_chars l))
      = dedupFirst (regexFindall (joinSpace (find_hex_colors_chars l))) := rfl
    _ = dedupFirst (find_hex_colors_chars l) := by rw [hscan]
    _ = ddAux [] (find_hex_colors_chars l) := dedupFirst_eq_ddAux _
    _ = find_hex_colors_chars l := ddAux_eq_self _ _ hnd (by simp)

/-- Claim C7: a string without `#` (the empty string included) extracts to the
empty list, with no error possible (the function is total). -/
theorem claim7_no_hash (l : List Char) (h : '#' ∉ l) : find_hex_colors_chars l = [] := by
  rw [find_hex_colors_chars_spec, specScanFuel_no_hash _ _ _ h]
  rfl

theorem claim7_witness :
    ('#' ∉ "abc".data) ∧ find_hex_colors_chars "abc".data = [] ∧
    find_hex_colors_chars [] = [] :=
  ⟨by decide, claim7_no_hash "abc".data (by decide), claim7_no_hash [] (by decide)⟩

/-- Claim C8: when the Source Loader fails, the driver's `except` branch prints
exactly one user-facing line and nothing else; no report is produced and the
output does not depend on the extractor, which is therefore never invoked. -/
theorem claim8_loader_error (e : String) :
    mainOutput (Except.error e) = ["Ошибка при получении данных: " ++ e] ∧
    (mainOutput (Except.error e)).length = 1 ∧
    (∀ extractor : String → List String,
      mainOutputWith extractor (Except.error e) = mainOutput (Except.error e)) :=
  ⟨rfl, rfl, fun _ => rfl⟩

/-- Claim C9: the report is a header line followed by a single "none found"
line for an empty result, and otherwise by exactly one line per token,
numbered consecutively from 1, each showing the token and its hex-digit count
(its length minus one). -/
theorem claim9_report_format (found : List String) :
    (report_lines found).length = 1 + (if found.isEmpty then 1 else found.length) ∧
    (report_lines found).head? = some "Отчет по найденным HEX-цветам:" ∧
    (found.isEmpty = true → report_lines found
      = ["Отчет по найденным HEX-цветам:", "  Цвета не найдены."]) ∧
    (∀ i (h : i < found.length), (report_lines found)[i + 1]?
      = some ("  " ++ toString (i + 1) ++ ". " ++ found.get ⟨i, h⟩ ++ " — "
          ++ toString ((found.get ⟨i, h⟩).length - 1) ++ " символов")) ∧
    generate_report found = String.intercalate "\n" (report_lines found) := by
  refine ⟨?_, ?_, ?_, ?_, rfl⟩
  · by_cases he : found.isEmpty
    · simp [report_lines, he]
    · simp [report_lines, he]
      omega
  · by_cases he : found.isEmpty
    · simp [report_lines, he]
    · simp [report_lines, he]
  · intro he
    simp [report_lines, he]
  · intro i h
    have hne : found.isEmpty = false := by
      cases found
      · simp at h
      · rfl
    simp only [report_lines, hne, Bool.false_eq_true, if_false, List.getElem?_cons_succ,
      List.getElem?_map, List.getElem?_enumFrom]
    rw [List.getElem?_eq_getElem h]
    simp only [Option.map_some, Option.map_map, Option.some.injEq, List.get_eq_getElem]
    rw [Nat.add_comm 1 i]
    simp

theorem claim9_witness :
    (0 < (["#fff"] : List String).length) ∧
    (report_lines ["#fff"])[1]? = some "  1. #fff — 3 символов" :=
  ⟨by decide,
    ((claim9_report_format ["#fff"]).2.2.2.1 0 (by decide)).trans (by decide)⟩

/-- Claim C10: a valid token at the very start of the input (no preceding
character) and at the very end (no following character) is matched: the
neighbour conditions hold vacuously. In particular `extract(t) = [t]`, and the
one-sided variants with a single separator on the other side also hold. -/
theorem claim10_boundary_token (ds : List Char)
    (hall : ds.all isHexDigit = true)
    (hlen : ds.length = 3 ∨ ds.length = 4 ∨ ds.length = 6 ∨ ds.length = 8) :
    find_hex_colors_chars ('#' :: ds) = ['#' :: ds] ∧
    (∀ y, isHexDigit y = false → find_hex_colors_chars ('#' :: (ds ++ [y])) = ['#' :: ds]) ∧
    (∀ x, isHexDigit x = false → x ≠ '#' →
      find_hex_colors_chars (x :: '#' :: ds) = ['#' :: ds]) := by
  refine ⟨?_, ?_, ?_⟩
  · have h0 := extract_isolated_token ds [] hall hlen (Or.inl rfl)
    rw [List.append_nil] at h0
    exact h0
  · intro y hy
    exact extract_isolated_token ds [y] hall hlen (Or.inr ⟨y, rfl, hy⟩)
  · intro x hx hxh
    have h0 := extract_sep_isolated_token x ds [] hxh hall hlen (Or.inl rfl)
      (by simp [prevHexOrHash, hx, hxh])
    rw [List.append_nil] at h0
    exact h0

theorem claim10_witness :
    (['a', 'b', 'c', 'd'] : List Char).all isHexDigit = true ∧
    find_hex_colors_chars ('#' :: ['a', 'b', 'c', 'd']) = ['#' :: ['a', 'b', 'c', 'd']] :=
  ⟨by decide,
    (claim10_boundary_token ['a', 'b', 'c', 'd'] (by decide) (by decide)).1⟩
